import Mathlib

/-!
A shallow embedding of the heuristic SwiftUI-to-tree parser (src/parser.js)
and proofs about the specified properties.

Texts are modelled as `List Char` (JavaScript strings are sequences of code
units; all inputs of interest are ASCII).  Index-based scanning loops of the
source are translated into structurally recursive cursor-style functions that
consume a suffix of the text; functions of the source that return an index
are translated to return the corresponding remaining suffix.  The mutually
recursive parsing functions take an explicit fuel argument (the source relies
on the JavaScript call stack); `none` means the computation exceeds the fuel,
so non-termination of the source corresponds to `none` for every fuel.  The
fuel is decremented at every call between the fuelled functions (including
the helper phases a long source function is split into), so a terminating
source computation corresponds to `some` for every sufficiently large fuel;
only the distinction between `none`-for-every-fuel and eventually-`some`
is meaningful.
-/

/-- JavaScript whitespace test (the ASCII part of `\s` and `String.trim`). -/
def jsIsSpace (c : Char) : Bool :=
  c = ' ' || c = '\t' || c = '\n' || c = '\r' || c = '\x0b' || c = '\x0c'

/-- JavaScript `\w` / `[A-Za-z0-9_]` character class. -/
def isWordChar (c : Char) : Bool :=
  ('A' ≤ c && c ≤ 'Z') || ('a' ≤ c && c ≤ 'z') || ('0' ≤ c && c ≤ '9') || c = '_'

/-- The identifier/member-chain characters of `parseViewExpression`:
`[A-Za-z0-9_\.]`. -/
def isIdentChar (c : Char) : Bool :=
  isWordChar c || c = '.'

/-- The `[\n\r\t]` class of the first regex in `normalizeValue`. -/
def isNRT (c : Char) : Bool :=
  c = '\n' || c = '\r' || c = '\t'

/-- `String.prototype.trimStart`. -/
def trimStartL (l : List Char) : List Char :=
  l.dropWhile jsIsSpace

/-- `String.prototype.trimEnd`. -/
def trimEndL (l : List Char) : List Char :=
  (l.reverse.dropWhile jsIsSpace).reverse

/-- `String.prototype.trim`. -/
def trimL (l : List Char) : List Char :=
  trimEndL (trimStartL l)

/-- `readString` (src/parser.js:70-79), translated to consume the suffix
after the opening quote.  Returns the span up to and including the closing
quote (or up to the end of the text when unterminated, matching the
`return n - 1`) together with the remaining suffix. -/
def readStringAux : List Char → List Char × List Char
  | [] => ([], [])
  | '\\' :: c :: rest =>
    let p := readStringAux rest
    ('\\' :: c :: p.1, p.2)
  | '"' :: rest => (['"'], rest)
  | c :: rest =>
    let p := readStringAux rest
    (c :: p.1, p.2)

/-- `readTripleQuoted` (src/parser.js:81-94), on the suffix after the three
opening quotes.  Returns the span up to and including the closing `"""` (or
to the end when unterminated) and the remaining suffix. -/
def readTripleAux : List Char → List Char × List Char
  | '"' :: '"' :: '"' :: rest => (['"', '"', '"'], rest)
  | [] => ([], [])
  | c :: rest =>
    let p := readTripleAux rest
    (c :: p.1, p.2)

/-- `readSwiftString` (src/parser.js:96-102): the input suffix starts at a
quote; dispatches between triple-quoted and single-line strings.  Returns the
consumed span (including the quotes) and the remaining suffix. -/
def readSwiftString : List Char → List Char × List Char
  | [] => ([], [])
  | '"' :: '"' :: '"' :: rest =>
    let p := readTripleAux rest
    ('"' :: '"' :: '"' :: p.1, p.2)
  | '"' :: rest =>
    let p := readStringAux rest
    ('"' :: p.1, p.2)
  | c :: rest => ([c], rest)

/-- Scanning mode shared by the character-level state machines below. -/
inductive ScanMode where
  | norm
  | str
  | triple
  | line
  | block
deriving DecidableEq

/-- The loop of `splitArgs` (src/parser.js:105-117) as a state machine:
`d` is the parenthesis depth, `cur` the current argument being accumulated.
String spans (via `readSwiftString`) are copied verbatim into `cur`; a comma
at depth zero ends the current argument (pushed trimmed, even when empty);
at the end the final argument is pushed only when nonempty after trimming. -/
def splitArgsRun : ScanMode → Int → List Char → List Char → List (List Char)
  | .norm, _, cur, [] =>
    if (trimL cur).isEmpty then [] else [trimL cur]
  | .norm, d, cur, '"' :: '"' :: '"' :: rest =>
    splitArgsRun .triple d (cur ++ ['"', '"', '"']) rest
  | .norm, d, cur, '"' :: rest => splitArgsRun .str d (cur ++ ['"']) rest
  | .norm, d, cur, c :: rest =>
    let d' : Int := if c = '(' then d + 1 else if c = ')' then d - 1 else d
    if c = ',' ∧ d = 0 then trimL cur :: splitArgsRun .norm d' [] rest
    else splitArgsRun .norm d' (cur ++ [c]) rest
  | .str, d, cur, '\\' :: c :: rest => splitArgsRun .str d (cur ++ ['\\', c]) rest
  | .str, d, cur, '"' :: rest => splitArgsRun .norm d (cur ++ ['"']) rest
  | .str, d, cur, c :: rest => splitArgsRun .str d (cur ++ [c]) rest
  | .str, _, cur, [] =>
    if (trimL cur).isEmpty then [] else [trimL cur]
  | .triple, d, cur, '"' :: '"' :: '"' :: rest =>
    splitArgsRun .norm d (cur ++ ['"', '"', '"']) rest
  | .triple, d, cur, c :: rest => splitArgsRun .triple d (cur ++ [c]) rest
  | .triple, _, cur, [] =>
    if (trimL cur).isEmpty then [] else [trimL cur]
  | .line, _, cur, l => [trimL (cur ++ l)]
  | .block, _, cur, l => [trimL (cur ++ l)]

/-- `splitArgs` (src/parser.js:105-117): split a text on top-level commas,
honouring parentheses and string spans.  (The `.line`/`.block` modes of the
state machine are unreachable from here: `splitArgs` has no comment
handling.) -/
def splitArgs (s : List Char) : List (List Char) :=
  splitArgsRun .norm 0 [] s

/-- First regex replacement of `normalizeValue`: each run of `[\n\r\t]+`
becomes one space.  The Boolean argument records whether the previous
character belonged to such a run. -/
def collapseNRT : Bool → List Char → List Char
  | _, [] => []
  | inRun, c :: rest =>
    if isNRT c then
      if inRun then collapseNRT true rest else ' ' :: collapseNRT true rest
    else c :: collapseNRT false rest

/-- Second regex replacement of `normalizeValue`: each run of `\s{2,}`
becomes one space; a lone whitespace character is kept as it is.  The
Boolean argument records whether we are inside a run that has already been
replaced. -/
def collapseWS : Bool → List Char → List Char
  | _, [] => []
  | true, c :: rest =>
    if jsIsSpace c then collapseWS true rest else c :: collapseWS false rest
  | false, c :: rest =>
    if jsIsSpace c then
      match rest with
      | [] => [c]
      | c2 :: _ =>
        if jsIsSpace c2 then ' ' :: collapseWS true rest
        else c :: collapseWS false rest
    else c :: collapseWS false rest

/-- The normalized form computed by `normalizeValue` before truncation:
`val.replace(/[\n\r\t]+/g, ' ').replace(/\s{2,}/g, ' ').trim()`. -/
def normalizeSingle (val : List Char) : List Char :=
  trimL (collapseWS false (collapseNRT false val))

/-- `normalizeValue` (src/parser.js:119-124): whitespace normalization, then
truncation of values longer than 60 characters to 57 characters plus the
ellipsis character. -/
def normalizeValue (val : List Char) : List Char :=
  let single := normalizeSingle val
  if single.length > 60 then single.take 57 ++ ['…'] else single

/-- One argument of `parsePropsFromArgs` (src/parser.js:126-141): the regex
`^(\w+)\s*:\s*([\s\S]+)$` matched against a part, producing the normalized
`key: value` string for a labelled argument or the normalized part itself
for a positional one.  The regex matches exactly when the part starts with a
nonempty run of word characters followed (after optional whitespace) by a
colon with at least one character after it; greedy `\s*` after the colon
backtracks one character when everything after the colon is whitespace. -/
def propOfPart (p : List Char) : List Char :=
  let key := p.takeWhile isWordChar
  let afterKey := p.dropWhile isWordChar
  let afterSp := afterKey.dropWhile jsIsSpace
  match key, afterSp with
  | _ :: _, ':' :: rest =>
    if rest.isEmpty then normalizeValue p
    else
      let v := rest.dropWhile jsIsSpace
      let m2 := if v.isEmpty then rest.drop (rest.length - 1) else v
      key ++ ':' :: ' ' :: normalizeValue m2
  | _, _ => normalizeValue p

/-- `parsePropsFromArgs` (src/parser.js:126-141). -/
def parsePropsFromArgs (argsText : List Char) : List (List Char) :=
  if argsText.isEmpty ∨ (trimL argsText).isEmpty then []
  else (splitArgs argsText).map propOfPart

/-- The loop of `readBalanced` (src/parser.js:41-68) as a state machine over
the suffix after the opening delimiter, with `d` the current depth (the
opening delimiter has already been counted).  Strings, line comments and
block comments are opaque; reaching the end of the text in any mode is the
`return null` of the source, as is an unterminated comment or string (whose
skip runs past the end).  On success returns the inner text (up to the
matching closing delimiter, exclusive) and the suffix after it. -/
def readBalancedRun (oc cc : Char) : ScanMode → Int → List Char → Option (List Char × List Char)
  | _, _, [] => none
  | .norm, d, '"' :: '"' :: '"' :: rest =>
    (readBalancedRun oc cc .triple d rest).map fun p => ('"' :: '"' :: '"' :: p.1, p.2)
  | .norm, d, '"' :: rest =>
    (readBalancedRun oc cc .str d rest).map fun p => ('"' :: p.1, p.2)
  | .norm, d, '/' :: '/' :: rest =>
    (readBalancedRun oc cc .line d rest).map fun p => ('/' :: '/' :: p.1, p.2)
  | .norm, d, '/' :: '*' :: rest =>
    (readBalancedRun oc cc .block d rest).map fun p => ('/' :: '*' :: p.1, p.2)
  | .norm, d, c :: rest =>
    if c = oc then
      (readBalancedRun oc cc .norm (d + 1) rest).map fun p => (c :: p.1, p.2)
    else if c = cc then
      if d - 1 = 0 then some ([], rest)
      else (readBalancedRun oc cc .norm (d - 1) rest).map fun p => (c :: p.1, p.2)
    else (readBalancedRun oc cc .norm d rest).map fun p => (c :: p.1, p.2)
  | .str, d, '\\' :: c :: rest =>
    (readBalancedRun oc cc .str d rest).map fun p => ('\\' :: c :: p.1, p.2)
  | .str, d, '"' :: rest =>
    (readBalancedRun oc cc .norm d rest).map fun p => ('"' :: p.1, p.2)
  | .str, d, c :: rest =>
    (readBalancedRun oc cc .str d rest).map fun p => (c :: p.1, p.2)
  | .triple, d, '"' :: '"' :: '"' :: rest =>
    (readBalancedRun oc cc .norm d rest).map fun p => ('"' :: '"' :: '"' :: p.1, p.2)
  | .triple, d, c :: rest =>
    (readBalancedRun oc cc .triple d rest).map fun p => (c :: p.1, p.2)
  | .line, d, '\n' :: rest =>
    (readBalancedRun oc cc .norm d rest).map fun p => ('\n' :: p.1, p.2)
  | .line, d, c :: rest =>
    (readBalancedRun oc cc .line d rest).map fun p => (c :: p.1, p.2)
  | .block, d, '*' :: '/' :: rest =>
    (readBalancedRun oc cc .norm d rest).map fun p => ('*' :: '/' :: p.1, p.2)
  | .block, d, c :: rest =>
    (readBalancedRun oc cc .block d rest).map fun p => (c :: p.1, p.2)

/-- `readBalanced` (src/parser.js:41-68): the input suffix must start with
the opening delimiter; returns the inner text and the suffix after the
matching closing delimiter, or `none` when balance is never restored. -/
def readBalanced (oc cc : Char) : List Char → Option (List Char × List Char)
  | [] => none
  | c :: rest =>
    if c = oc then readBalancedRun oc cc .norm 1 rest else none

/-- The `do { ... } while (j < n && d > 0)` parenthesis scan used by
`parseViewExpression` (src/parser.js:165) and the modifier scanner
(src/parser.js:224).  No string or comment skipping.  Returns the consumed
span (through the balancing `)` inclusive, or the whole text when balance is
never restored) and the remaining suffix. -/
def parenScanAux : Int → List Char → List Char × List Char
  | _, [] => ([], [])
  | d, c :: rest =>
    let d' : Int := if c = '(' then d + 1 else if c = ')' then d - 1 else d
    if d' > 0 then
      let p := parenScanAux d' rest
      (c :: p.1, p.2)
    else ([c], rest)

/-- The paren scan started at depth 0 on a suffix beginning with `(`. -/
def parenScan (l : List Char) : List Char × List Char :=
  parenScanAux 0 l

/-- Whether the regex `content\s*:\s*\{` matches at the head of the suffix;
when it does, returns the suffix starting at the `{`. -/
def contentMatchAt (l : List Char) : Option (List Char) :=
  if ("content".data).isPrefixOf l then
    let r1 := (l.drop 7).dropWhile jsIsSpace
    match r1 with
    | ':' :: r2 =>
      let r3 := r2.dropWhile jsIsSpace
      match r3 with
      | '{' :: _ => some r3
      | _ => none
    | _ => none
  else none

/-- `/content\s*:\s*\{/.exec(after)` (src/parser.js:173): the first position
where the regex matches; returns the suffix starting at the matched `{`. -/
def findContent : List Char → Option (List Char)
  | [] => none
  | l@(_ :: rest) =>
    match contentMatchAt l with
    | some r => some r
    | none => findContent rest

/-- Word-boundary test of `isWordAt` / `stripLeadingClosureParams` for the
character (if any) adjacent to a matched token: absent or not a word
character. -/
def boundaryOk : Option Char → Bool
  | none => true
  | some c => !isWordChar c

/-- The scan loop of `stripLeadingClosureParams` (src/parser.js:241-272)
after the initial whitespace skip: `prev` is the character before the
cursor.  Finds the first top-level word-boundary `in` token outside strings;
returns the suffix after it, or `none` when no such token exists (the source
then returns the text unchanged). -/
def stripClosureRun : ScanMode → Int → Int → Option Char → List Char → Option (List Char)
  | _, _, _, _, [] => none
  | .norm, dp, db, _, '"' :: '"' :: '"' :: rest =>
    stripClosureRun .triple dp db (some '"') rest
  | .norm, dp, db, _, '"' :: rest => stripClosureRun .str dp db (some '"') rest
  | .norm, dp, db, prev, c :: rest =>
    let dp' : Int := if c = '(' then dp + 1 else if c = ')' then dp - 1 else dp
    let db' : Int := if c = '{' then db + 1 else if c = '}' then db - 1 else db
    if dp' = 0 ∧ db' = 0 ∧ c = 'i' ∧ rest.head? = some 'n' ∧ boundaryOk prev
        ∧ boundaryOk (rest.drop 1).head? then
      some (rest.drop 1)
    else stripClosureRun .norm dp' db' (some c) rest
  | .str, dp, db, _, '\\' :: c :: rest => stripClosureRun .str dp db (some c) rest
  | .str, dp, db, _, '"' :: rest => stripClosureRun .norm dp db (some '"') rest
  | .str, dp, db, _, c :: rest => stripClosureRun .str dp db (some c) rest
  | .triple, dp, db, _, '"' :: '"' :: '"' :: rest =>
    stripClosureRun .norm dp db (some '"') rest
  | .triple, dp, db, _, c :: rest => stripClosureRun .triple dp db (some c) rest
  | .line, _, _, _, _ => none
  | .block, _, _, _, _ => none

/-- `stripLeadingClosureParams` (src/parser.js:241-272): drop a leading
closure-parameter preamble ending in a top-level `in` token, trimming the
start of what follows; the text is returned unchanged when no such token is
found.  (The `.line`/`.block` modes are unreachable: the source has no
comment handling here.) -/
def stripLeadingClosureParams (text : List Char) : List Char :=
  let ws := text.takeWhile jsIsSpace
  let rest := text.dropWhile jsIsSpace
  match stripClosureRun .norm 0 0 ws.getLast? rest with
  | some r => trimStartL r
  | none => text

/-- The modifier-chain scan over the expression tail
(src/parser.js:207-235), fuelled (each step consumes at least one character,
so `fuel = length + 1` never runs out).  `d` is the parenthesis depth.  A
top-level `.` starts a modifier: its word-character name, optional
whitespace, then an optional parenthesized argument span; the pushed entry
is `name(args.trim())` when the raw argument text is nonempty and just
`name` otherwise. -/
def scanModsRun : Nat → Int → List Char → List (List Char)
  | 0, _, _ => []
  | _ + 1, _, [] => []
  | fuel + 1, d, l@('"' :: _) =>
    let p := readSwiftString l
    scanModsRun fuel d p.2
  | fuel + 1, d, c :: rest =>
    let d' : Int := if c = '(' then d + 1 else if c = ')' then d - 1 else d
    if c = '.' ∧ d = 0 then
      let nm := rest.takeWhile isWordChar
      let afterNm := rest.dropWhile isWordChar
      let afterWs := afterNm.dropWhile jsIsSpace
      match afterWs with
      | '(' :: _ =>
        let p := parenScan afterWs
        let args := (p.1.drop 1).dropLast
        let entry := if args.isEmpty then nm else nm ++ '(' :: trimL args ++ [')']
        entry :: scanModsRun fuel d' p.2
      | _ => nm :: scanModsRun fuel d' afterWs
    else scanModsRun fuel d' rest

/-- The modifier scan over a tail text, with enough fuel by construction. -/
def scanModifiers (tail : List Char) : List (List Char) :=
  scanModsRun (tail.length + 1) 0 tail

/-- `CONTAINER_TYPES` (src/parser.js:10-12), used by the custom-view
resolver (`ZStack` is listed twice in the source). -/
def containerTypes : List String :=
  ["VStack", "HStack", "ZStack", "ScrollView", "List", "Group", "ForEach",
   "Section", "Form", "TabView", "NavigationStack", "NavigationView",
   "LazyVStack", "LazyHStack", "LazyVGrid", "LazyHGrid", "Grid", "ZStack",
   "GeometryReader", "AnyView"]

/-- The container-kind alternation of src/parser.js:158-159 (anchored full
match; note it differs from `CONTAINER_TYPES`: no `ForEach`, no `AnyView`). -/
def kindContainerNames : List String :=
  ["VStack", "HStack", "ZStack", "ScrollView", "List", "Group", "Section",
   "Form", "TabView", "NavigationStack", "NavigationView", "LazyVStack",
   "LazyHStack", "LazyVGrid", "LazyHGrid", "Grid", "GeometryReader"]

/-- `/^ForEach(\b|$)/.test(name)` for a name made of identifier characters:
the character after `ForEach`, if any, must be a non-word character, and `.`
is the only non-word identifier character. -/
def isForEachName (name : String) : Bool :=
  name = "ForEach" || ("ForEach.".data).isPrefixOf name.data

/-- One node of the output tree.  `props` is optional because the synthetic
`Group` wrapper of `buildTreeForRoot` (src/parser.js:426) is built without a
`props` field, unlike every node made by `parseViewExpression`. -/
inductive ViewNode where
  | mk (kind : String) (name : String) (props : Option (List String))
      (modifiers : List String) (children : List ViewNode)

/-- The `kind` field. -/
def ViewNode.kind : ViewNode → String
  | .mk k _ _ _ _ => k

/-- The `name` field. -/
def ViewNode.name : ViewNode → String
  | .mk _ n _ _ _ => n

/-- The `props` field (`none` models an absent field). -/
def ViewNode.props : ViewNode → Option (List String)
  | .mk _ _ p _ _ => p

/-- The `modifiers` field. -/
def ViewNode.modifiers : ViewNode → List String
  | .mk _ _ _ m _ => m

/-- The `children` field. -/
def ViewNode.children : ViewNode → List ViewNode
  | .mk _ _ _ _ c => c

/-- Modes of the expression scan below: `norm` is ordinary scanning;
`tq2`/`tq1` consume the second and third quote of a detected triple-quote
opening; `triple` scans for the closing triple quote; `tc2`/`tc1` consume
its second and third quote. -/
inductive SEMode where
  | norm
  | tq2
  | tq1
  | triple
  | tc2
  | tc1
deriving DecidableEq

/-- The inner expression scan of `parseChildrenBlock` (src/parser.js:292-317)
as a state machine: `inStr` is the source's `inString` toggle, `dp`/`db` the
parenthesis/brace depths, `prev` the character before the cursor (used for
the `body[i - 1] !== '\\'` escape test).  A quote (not preceded by a
backslash) followed by two more quotes starts a triple-quoted skip (entered
regardless of `inStr`, as in the source); otherwise it toggles `inStr`.  The
scan stops at a newline at depth zero outside strings whose next non-space
character is not a modifier-continuation dot; returns the consumed
expression text (the break character excluded) and the suffix after the
break character. -/
def scanExprRun : SEMode → Bool → Int → Int → Option Char → List Char → List Char × List Char
  | _, _, _, _, _, [] => ([], [])
  | .tq2, inStr, dp, db, _, c :: rest =>
    let p := scanExprRun .tq1 inStr dp db none rest
    (c :: p.1, p.2)
  | .tq1, inStr, dp, db, _, c :: rest =>
    let p := scanExprRun .triple inStr dp db none rest
    (c :: p.1, p.2)
  | .triple, inStr, dp, db, _, '"' :: rest =>
    if rest.head? = some '"' ∧ (rest.drop 1).head? = some '"' then
      let p := scanExprRun .tc2 inStr dp db none rest
      ('"' :: p.1, p.2)
    else
      let p := scanExprRun .triple inStr dp db none rest
      ('"' :: p.1, p.2)
  | .triple, inStr, dp, db, _, c :: rest =>
    let p := scanExprRun .triple inStr dp db none rest
    (c :: p.1, p.2)
  | .tc2, inStr, dp, db, _, c :: rest =>
    let p := scanExprRun .tc1 inStr dp db none rest
    (c :: p.1, p.2)
  | .tc1, inStr, dp, db, _, c :: rest =>
    let p := scanExprRun .norm inStr dp db (some '"') rest
    (c :: p.1, p.2)
  | .norm, inStr, dp, db, prev, '"' :: rest =>
    if prev = some '\\' then
      let p := scanExprRun .norm inStr dp db (some '"') rest
      ('"' :: p.1, p.2)
    else if rest.head? = some '"' ∧ (rest.drop 1).head? = some '"' then
      let p := scanExprRun .tq2 inStr dp db none rest
      ('"' :: p.1, p.2)
    else
      let p := scanExprRun .norm (!inStr) dp db (some '"') rest
      ('"' :: p.1, p.2)
  | .norm, inStr, dp, db, _, c :: rest =>
    if inStr then
      let p := scanExprRun .norm inStr dp db (some c) rest
      (c :: p.1, p.2)
    else
      let dp' : Int := if c = '(' then dp + 1 else if c = ')' then dp - 1 else dp
      let db' : Int := if c = '{' then db + 1 else if c = '}' then db - 1 else db
      if c = '\n' ∧ dp = 0 ∧ db = 0 ∧ (rest.dropWhile jsIsSpace).head? ≠ some '.' then
        ([], rest)
      else
        let p := scanExprRun .norm inStr dp' db' (some c) rest
        (c :: p.1, p.2)

/-- The condition scan of `parseIfElse` (src/parser.js:343-351): consume up
to the first top-level `{` (string spans opaque, parenthesis depth `dp`).
Returns the condition text and the suffix starting at the `{` (empty when no
such brace exists).  The `.line`/`.block` modes are unreachable. -/
def condScanRun : ScanMode → Int → List Char → List Char × List Char
  | _, _, [] => ([], [])
  | .norm, dp, '"' :: '"' :: '"' :: rest =>
    let p := condScanRun .triple dp rest
    ('"' :: '"' :: '"' :: p.1, p.2)
  | .norm, dp, '"' :: rest =>
    let p := condScanRun .str dp rest
    ('"' :: p.1, p.2)
  | .norm, dp, c :: rest =>
    if c = '{' ∧ dp = 0 then ([], c :: rest)
    else
      let dp' : Int := if c = '(' then dp + 1 else if c = ')' then dp - 1 else dp
      let p := condScanRun .norm dp' rest
      (c :: p.1, p.2)
  | .str, dp, '\\' :: c :: rest =>
    let p := condScanRun .str dp rest
    ('\\' :: c :: p.1, p.2)
  | .str, dp, '"' :: rest =>
    let p := condScanRun .norm dp rest
    ('"' :: p.1, p.2)
  | .str, dp, c :: rest =>
    let p := condScanRun .str dp rest
    (c :: p.1, p.2)
  | .triple, dp, '"' :: '"' :: '"' :: rest =>
    let p := condScanRun .norm dp rest
    ('"' :: '"' :: '"' :: p.1, p.2)
  | .triple, dp, c :: rest =>
    let p := condScanRun .triple dp rest
    (c :: p.1, p.2)
  | .line, _, l => ([], l)
  | .block, _, l => ([], l)

/-- `isWordAt` (src/parser.js:327-334) specialised to cursor-style scanning:
the word must be a prefix of the suffix, the character before the cursor (if
any) and the character after the word (if any) must be non-word characters. -/
def wordAtHere (prev : Option Char) (w : List Char) (l : List Char) : Bool :=
  w.isPrefixOf l && boundaryOk prev && boundaryOk (l.drop w.length).head?

mutual

/-- `parseViewExpression` (src/parser.js:145-238): parse one expression into
a node — leading identifier/member chain, kind classification, optional
argument list (with the `ForEach` labelled `content:` closure search), then
the trailing-block/modifier phase (`parseViewExprTail`).  Fuelled; `none`
means the fuel was exhausted. -/
def parseViewExpression : Nat → List Char → Option ViewNode
  | 0, _ => none
  | fuel + 1, expr =>
    let s := trimL expr
    let s2 := s.dropWhile jsIsSpace
    let base := s2.takeWhile isIdentChar
    let rest0 := s2.dropWhile isIdentChar
    let nameStr := if base.isEmpty then "View" else String.mk base
    let kindStr :=
      if isForEachName nameStr then "ForEach"
      else if kindContainerNames.contains nameStr then "Container"
      else "View"
    let rest1 := rest0.dropWhile jsIsSpace
    match rest1 with
    | '(' :: _ =>
      let pr := parenScan rest1
      let argsContent := (pr.1.drop 1).dropLast
      let props := parsePropsFromArgs argsContent
      if kindStr = "ForEach" then
        match findContent pr.2 with
        | some atBrace =>
          match readBalanced '{' '}' atBrace with
          | some (inner, afterBlk) =>
            match parseChildrenBlock fuel none (stripLeadingClosureParams inner) with
            | none => none
            | some ch0 => parseViewExprTail fuel kindStr nameStr props ch0 afterBlk
          | none => parseViewExprTail fuel kindStr nameStr props [] pr.2
        | none => parseViewExprTail fuel kindStr nameStr props [] pr.2
      else parseViewExprTail fuel kindStr nameStr props [] pr.2
    | _ => parseViewExprTail fuel kindStr nameStr [] [] rest1
termination_by structural fuel _ => fuel

/-- The trailing phase of `parseViewExpression` (src/parser.js:189-237): an
optional balanced `{}` block whose content (for `ForEach`, after stripping
the closure-parameter preamble) replaces the children, then the modifier
scan over the remaining tail.  When the block never balances, the source
leaves the cursor at the `{`, so the tail (and the modifier scan) starts
there. -/
def parseViewExprTail : Nat → String → String → List (List Char) → List ViewNode → List Char → Option ViewNode
  | 0, _, _, _, _, _ => none
  | fuel + 1, kindStr, nameStr, props, children0, restA =>
    let rest3 := restA.dropWhile jsIsSpace
    match rest3 with
    | '{' :: _ =>
      match readBalanced '{' '}' rest3 with
      | some (inner, afterBlk) =>
        let inner2 := if isForEachName nameStr then stripLeadingClosureParams inner else inner
        match parseChildrenBlock fuel none inner2 with
        | none => none
        | some ch =>
          some (.mk kindStr nameStr (some (props.map String.mk))
            ((scanModifiers afterBlk).map String.mk) ch)
      | none =>
        some (.mk kindStr nameStr (some (props.map String.mk))
          ((scanModifiers rest3).map String.mk) children0)
    | _ =>
      some (.mk kindStr nameStr (some (props.map String.mk))
        ((scanModifiers rest3).map String.mk) children0)
termination_by structural fuel _ _ _ _ _ => fuel

/-- `parseChildrenBlock` (src/parser.js:274-325): split a body into
top-level sibling expressions.  `prev` is the character before the current
cursor in the enclosing text (the source reads `body[i - 1]`); each loop
iteration skips whitespace and commas, handles a top-level `if` via
`parseIfElse` (which, per the source, resumes at `nextIndex + 1`, skipping
one character), and otherwise scans one expression. -/
def parseChildrenBlock : Nat → Option Char → List Char → Option (List ViewNode)
  | 0, _, _ => none
  | fuel + 1, prev, body =>
    let skipped := body.takeWhile fun c => jsIsSpace c || c = ','
    let b := body.dropWhile fun c => jsIsSpace c || c = ','
    let prev1 := match skipped.getLast? with
      | some c => some c
      | none => prev
    match b with
    | [] => some []
    | _ =>
      if wordAtHere prev1 ("if".data) b then
        match parseIfElse fuel b with
        | none => none
        | some (some node, restNext) =>
          match parseChildrenBlock fuel restNext.head? (restNext.drop 1) with
          | none => none
          | some rest => some (node :: rest)
        | some (none, _) => parseChildExpr fuel prev1 b
      else parseChildExpr fuel prev1 b
termination_by structural fuel _ _ => fuel

/-- One expression step of `parseChildrenBlock` (src/parser.js:290-322):
scan the expression text, parse it when nonempty after trimming, and
continue after the break character (a newline, hence the `'\n'` previous
character for the continuation). -/
def parseChildExpr : Nat → Option Char → List Char → Option (List ViewNode)
  | 0, _, _ => none
  | fuel + 1, prev1, b =>
    let p := scanExprRun .norm false 0 0 prev1 b
    let expr := trimL p.1
    if expr.isEmpty then parseChildrenBlock fuel (some '\n') p.2
    else
      match parseViewExpression fuel expr with
      | none => none
      | some nd =>
        match parseChildrenBlock fuel (some '\n') p.2 with
        | none => none
        | some rest => some (nd :: rest)
termination_by structural fuel _ _ => fuel

/-- `parseIfElse` (src/parser.js:336-385): parse an `if`/`else if`/`else`
construct starting at the `if` keyword.  Returns the parsed node (or `none`
in the first component when no balanced `{` follows the condition — the
source returns `{node: null, nextIndex: i}`) together with the suffix
starting at the source's `nextIndex`. -/
def parseIfElse : Nat → List Char → Option (Option ViewNode × List Char)
  | 0, _ => none
  | fuel + 1, l =>
    let l1 := (l.drop 2).dropWhile jsIsSpace
    let cs := condScanRun .norm 0 l1
    match cs.2 with
    | '{' :: _ =>
      match readBalanced '{' '}' cs.2 with
      | some (inner, afterThen) =>
        match parseChildrenBlock fuel none inner with
        | none => none
        | some thenCh =>
          let nodeName := "if " ++ String.mk (trimL cs.1)
          let c1 := afterThen.dropWhile jsIsSpace
          if "else".data.isPrefixOf c1 && boundaryOk (c1.drop 4).head? then
            let c3 := (c1.drop 4).dropWhile jsIsSpace
            if "if".data.isPrefixOf c3 && boundaryOk (c3.drop 2).head? then
              match parseIfElse fuel c3 with
              | none => none
              | some (some nd, restNext) =>
                some (some (.mk "If" nodeName (some []) []
                  [.mk "Branch" "Then" (some []) [] thenCh,
                   .mk "Branch" "Else" (some []) [] [nd]]), restNext.drop 1)
              | some (none, _) =>
                some (some (.mk "If" nodeName (some []) []
                  [.mk "Branch" "Then" (some []) [] thenCh]), c3)
            else
              match c3 with
              | '{' :: _ =>
                match readBalanced '{' '}' c3 with
                | some (einner, afterElse) =>
                  match parseChildrenBlock fuel none einner with
                  | none => none
                  | some elseCh =>
                    some (some (.mk "If" nodeName (some []) []
                      [.mk "Branch" "Then" (some []) [] thenCh,
                       .mk "Branch" "Else" (some []) [] elseCh]), afterElse)
                | none =>
                  some (some (.mk "If" nodeName (some []) []
                    [.mk "Branch" "Then" (some []) [] thenCh]), c3)
              | _ =>
                some (some (.mk "If" nodeName (some []) []
                  [.mk "Branch" "Then" (some []) [] thenCh]), c3)
          else
            some (some (.mk "If" nodeName (some []) []
              [.mk "Branch" "Then" (some []) [] thenCh]), c1)
      | none => some (none, l)
    | _ => some (none, l)
termination_by structural fuel _ => fuel

end

/-- `Map.prototype.get` on the declaration map, modelled as an association
list with unique keys (as `extractViews` produces per declaration name;
for a duplicate key JavaScript's `Map` would keep the last insertion,
first lookup here — the difference is unreachable for unique keys). -/
def lookupMap : List (String × String) → String → Option String
  | [], _ => none
  | (k, v) :: rest, name => if k = name then some v else lookupMap rest name

/-- `resolveCustomViews` (src/parser.js:387-413).  When the node's name is a
declaration-map key and not a reserved container name: if the name is in the
`seen` set, a recursion-marker modifier is appended; otherwise the node is
reclassified as `CustomView` and its children are replaced by the parsed
declaration body (both branches of the source's inner `if` perform the same
assignment), with the name added to and then removed from `seen` before the
loop over the children — so the children are always resolved with the
original `seen` set.  The children are then resolved recursively. -/
def resolveCustomViews : Nat → ViewNode → List (String × String) → List String → Option ViewNode
  | 0, _, _, _ => none
  | fuel + 1, tree, viewMap, seen =>
    match lookupMap viewMap tree.name with
    | some body =>
      if containerTypes.contains tree.name then
        match tree.children.mapM (fun c => resolveCustomViews fuel c viewMap seen) with
        | none => none
        | some cs => some (.mk tree.kind tree.name tree.props tree.modifiers cs)
      else if seen.contains tree.name then
        match tree.children.mapM (fun c => resolveCustomViews fuel c viewMap seen) with
        | none => none
        | some cs =>
          some (.mk tree.kind tree.name tree.props
            (tree.modifiers ++ ["/* recursion */"]) cs)
      else
        match parseChildrenBlock fuel none body.data with
        | none => none
        | some parsed =>
          let seen2 := (tree.name :: seen).erase tree.name
          match parsed.mapM (fun c => resolveCustomViews fuel c viewMap seen2) with
          | none => none
          | some cs => some (.mk "CustomView" tree.name tree.props tree.modifiers cs)
    | none =>
      match tree.children.mapM (fun c => resolveCustomViews fuel c viewMap seen) with
      | none => none
      | some cs => some (.mk tree.kind tree.name tree.props tree.modifiers cs)
termination_by structural fuel _ _ _ => fuel

/-- `buildTreeForRoot` (src/parser.js:415-429).  The outer `Option` is the
fuel: `none` means the computation exceeds every stack bound.  The inner
`Option` is the source's `null` result: the named declaration is absent or
its body is the empty string (JavaScript falsiness of `!body`). -/
def buildTreeForRoot (fuel : Nat) (viewMap : List (String × String)) (rootName : String) :
    Option (Option ViewNode) :=
  match lookupMap viewMap rootName with
  | none => some none
  | some body =>
    if body = "" then some none
    else
      match parseChildrenBlock fuel none body.data with
      | none => none
      | some kids =>
        match kids with
        | [root] =>
          match resolveCustomViews fuel root viewMap [] with
          | none => none
          | some r => some (some r)
        | _ =>
          match resolveCustomViews fuel (.mk "View" "Group" none [] kids) viewMap [] with
          | none => none
          | some r => some (some r)

/-- Contiguous-substring test: does `pat` occur in `l`? -/
def hasSubstring (pat : List Char) : List Char → Bool
  | [] => pat.isEmpty
  | l@(_ :: rest) => pat.isPrefixOf l || hasSubstring pat rest

/-- `/ContentView|MainView|Root|App/i.test(name)` (src/parser.js:435):
case-insensitive substring match against the four literal alternatives. -/
def rootPatternTest (name : String) : Bool :=
  let l := name.data.map Char.toLower
  hasSubstring "contentview".data l || hasSubstring "mainview".data l
    || hasSubstring "root".data l || hasSubstring "app".data l

/-- The `score` helper of `collectRootCandidates`: 0 for a conventional
entry-point name, 1 otherwise. -/
def rootScore (name : String) : Nat :=
  if rootPatternTest name then 0 else 1

/-- Lexicographic character-list order (reflexive version). -/
def localeLE : List Char → List Char → Bool
  | [], _ => true
  | _ :: _, [] => false
  | x :: xs, y :: ys =>
    if x < y then true else if y < x then false else localeLE xs ys

/-- The comparator of `collectRootCandidates` (src/parser.js:434-437),
`score(a) - score(b) || a.localeCompare(b)`, as a Boolean order.
`localeCompare` is modelled as lexicographic string order (the names of
interest are ASCII identifiers). -/
def rootLE (a b : String) : Bool :=
  rootScore a < rootScore b || (rootScore a = rootScore b && localeLE a.data b.data)

/-- `collectRootCandidates` (src/parser.js:431-439): the declaration names
sorted with the entry-point comparator (`Array.prototype.sort` with a
consistent comparator; `mergeSort` produces the same sorted sequence). -/
def collectRootCandidates (viewMap : List (String × String)) : List String :=
  (viewMap.map Prod.fst).mergeSort rootLE

/-! Helper lemmas. -/

theorem space_char_cases {c : Char} (h : jsIsSpace c = true) :
    c = ' ' ∨ c = '\t' ∨ c = '\n' ∨ c = '\r' ∨ c = '\x0b' ∨ c = '\x0c' := by
  simpa [jsIsSpace, or_assoc] using h

theorem ident_not_space {c : Char} (h : isIdentChar c = true) : jsIsSpace c = false := by
  cases hs : jsIsSpace c with
  | false => rfl
  | true =>
    exfalso
    rcases space_char_cases hs with h1 | h1 | h1 | h1 | h1 | h1 <;> subst h1 <;>
      simp [isIdentChar, isWordChar] at h

theorem trimStartL_eq_self {l : List Char}
    (h : ∀ c, l.head? = some c → jsIsSpace c = false) : trimStartL l = l := by
  cases l with
  | nil => rfl
  | cons c rest =>
    have hc := h c rfl
    simp [trimStartL, List.dropWhile_cons, hc]

theorem trimEndL_eq_self {l : List Char}
    (h : ∀ c, l.getLast? = some c → jsIsSpace c = false) : trimEndL l = l := by
  unfold trimEndL
  have : l.reverse.dropWhile jsIsSpace = l.reverse := by
    cases hr : l.reverse with
    | nil => rfl
    | cons c rest =>
      have hc : l.getLast? = some c := by
        rw [← List.head?_reverse, hr]; rfl
      simp [List.dropWhile_cons, h c hc]
  rw [this, List.reverse_reverse]

theorem trimL_eq_self {l : List Char}
    (h1 : ∀ c, l.head? = some c → jsIsSpace c = false)
    (h2 : ∀ c, l.getLast? = some c → jsIsSpace c = false) : trimL l = l := by
  unfold trimL
  rw [trimStartL_eq_self h1, trimEndL_eq_self h2]

theorem parenScanAux_no_paren {t : List Char} :
    ∀ {d : Int}, 0 < d → (∀ c ∈ t, c ≠ '(' ∧ c ≠ ')') → parenScanAux d t = (t, []) := by
  induction t with
  | nil => intro d _ _; rfl
  | cons c rest ih =>
    intro d hd hc
    have h1 := hc c (by simp)
    have hrest : ∀ x ∈ rest, x ≠ '(' ∧ x ≠ ')' := fun x hx => hc x (by simp [hx])
    simp only [parenScanAux, h1.1, h1.2, if_false, if_neg h1.1, if_neg h1.2]
    rw [if_pos hd, ih hd hrest]

/-! ### C4: prop-value truncation -/

/-- C4.  For every prop value whose normalized text is longer than 60
characters, the stored value is the first 57 characters of the normalized
text followed by the ellipsis character and has length exactly 58; values of
normalized length at most 60 are stored without truncation. -/
theorem normalizeValue_truncation : ∀ val : List Char,
    ((normalizeSingle val).length > 60 →
      normalizeValue val = (normalizeSingle val).take 57 ++ ['…'] ∧
        (normalizeValue val).length = 58) ∧
    ((normalizeSingle val).length ≤ 60 → normalizeValue val = normalizeSingle val) := by
  intro val
  constructor
  · intro h
    have he : normalizeValue val = (normalizeSingle val).take 57 ++ ['…'] := by
      unfold normalizeValue
      rw [if_pos (by omega)]
    refine ⟨he, ?_⟩
    rw [he]
    simp [List.length_take]
    omega
  · intro h
    unfold normalizeValue
    rw [if_neg (by omega)]

/-- C4 witness: a concrete 61-character value is truncated to length 58. -/
theorem normalizeValue_truncation_witness :
    normalizeValue (List.replicate 61 'a') =
      (normalizeSingle (List.replicate 61 'a')).take 57 ++ ['…'] ∧
    (normalizeValue (List.replicate 61 'a')).length = 58 :=
  (normalizeValue_truncation (List.replicate 61 'a')).1 (by decide)

/-! ### C6: absent result for an unresolvable root name -/

/-- C6.  For every declaration map and root name, if the name is not a key
of the map (or its body text is empty, the other falsy case of `!body`),
`buildTreeForRoot` returns the absent result `some none` — a value, not a
thrown fault — for every fuel. -/
theorem buildTreeForRoot_absent :
    (∀ (fuel : Nat) (viewMap : List (String × String)) (rootName : String),
      lookupMap viewMap rootName = none →
      buildTreeForRoot fuel viewMap rootName = some none) ∧
    (∀ (fuel : Nat) (viewMap : List (String × String)) (rootName : String),
      lookupMap viewMap rootName = some "" →
      buildTreeForRoot fuel viewMap rootName = some none) := by
  constructor
  · intro fuel viewMap rootName h
    unfold buildTreeForRoot
    rw [h]
  · intro fuel viewMap rootName h
    unfold buildTreeForRoot
    rw [h]
    simp

/-- C6 witness: a name that is not a key of a concrete map yields the
absent result. -/
theorem buildTreeForRoot_absent_witness :
    buildTreeForRoot 0 [("ContentView", "Text(\"hi\")")] "Missing" = some none :=
  buildTreeForRoot_absent.1 0 [("ContentView", "Text(\"hi\")")] "Missing" rfl

/-! ### C2: the resolver does not require a leaf node -/

/-- C2 failing input: `Root`'s body uses `A` with a trailing block, so the
parsed `A` node is not a leaf (it has a `Text` child); the declaration map
also defines `A`.  `resolveCustomViews` nevertheless inlines `A`, discarding
the existing `Text("x")` child — the source (contradicting its own comment
at src/parser.js:388) never checks that the node is a leaf. -/
theorem resolveCustomViews_discards_nonleaf_children :
    buildTreeForRoot 12 [("Root", "A \x7b Text(\"x\") \x7d"), ("A", "Image()")] "Root" =
      some (some (.mk "CustomView" "A" (some []) []
        [.mk "View" "Image" (some []) [] []])) ∧
    (parseChildrenBlock 12 none ("A \x7b Text(\"x\") \x7d".data)).map (·.map ViewNode.children) =
      some [[.mk "View" "Text" (some ["\"x\""]) [] []]] := by
  constructor
  · rfl
  · rfl

/-! ### C8: argument splitting and opaque spans -/

theorem splitArgsRun_str_cons {d : Int} {cur : List Char} {c : Char} (h1 : c ≠ '"') (h2 : c ≠ '\\')
    (rest : List Char) :
    splitArgsRun .str d cur (c :: rest) = splitArgsRun .str d (cur ++ [c]) rest := by
  rw [splitArgsRun.eq_def]
  split <;> simp_all

theorem splitArgsRun_str_quote {d : Int} {cur : List Char} (rest : List Char) :
    splitArgsRun .str d cur ('"' :: rest) = splitArgsRun .norm d (cur ++ ['"']) rest := by
  rw [splitArgsRun.eq_def]
  split <;> simp_all [@eq_comm Char]

theorem splitArgsRun_norm_quote {d : Int} {cur : List Char} {c : Char} (hc : c ≠ '"')
    (rest : List Char) :
    splitArgsRun .norm d cur ('"' :: c :: rest) = splitArgsRun .str d (cur ++ ['"']) (c :: rest) := by
  rw [splitArgsRun.eq_def]
  split <;> simp_all [@eq_comm Char]

theorem splitArgsRun_str_clean : ∀ (inner : List Char) (d : Int) (cur : List Char),
    (∀ c ∈ inner, c ≠ '"' ∧ c ≠ '\\') →
    splitArgsRun .str d cur (inner ++ ['"']) =
      if (trimL (cur ++ inner ++ ['"'])).isEmpty then [] else [trimL (cur ++ inner ++ ['"'])] := by
  intro inner
  induction inner with
  | nil =>
    intro d cur _
    simp only [List.nil_append]
    rw [splitArgsRun_str_quote]
    simp [splitArgsRun]
  | cons c cs ih =>
    intro d cur h
    have hc := h c (by simp)
    rw [List.cons_append, splitArgsRun_str_cons hc.1 hc.2,
      ih d (cur ++ [c]) (fun x hx => h x (by simp [hx]))]
    simp [List.append_assoc]

theorem trimL_quoted (mid : List Char) : trimL (('"' :: mid) ++ ['"']) = ('"' :: mid) ++ ['"'] := by
  apply trimL_eq_self
  · intro c hc
    simp at hc
    subst hc
    decide
  · intro c hc
    rw [List.getLast?_concat] at hc
    simp at hc
    subst hc
    decide

/-- C8 counterexample: in `splitArgs ("x/*,*/y")` the comma sits inside a
block comment, yet it produces an argument boundary — the split does not
treat comment spans as opaque, contradicting the claim that a comma inside a
comment never produces a boundary (which would require the single argument
`x/*,*/y`). -/
theorem splitArgs_comment_comma_counterexample :
    splitArgs ("x/*,*/y".data) = ["x/*".data, "*/y".data] ∧
    splitArgs ("x/*,*/y".data) ≠ ["x/*,*/y".data] := by
  constructor
  · decide
  · decide

/-- C8 amended: an argument list is split only at commas at top-level
parenthesis depth and quoted strings are treated as opaque (a comma inside a
string literal never produces a boundary, shown here for a whole quoted
argument); comment spans are NOT opaque — a comma inside a comment does
split, as the accompanying counterexample shows. -/
theorem splitArgs_amended :
    (∀ inner : List Char, (∀ c ∈ inner, c ≠ '"' ∧ c ≠ '\\') →
      splitArgs (('"' :: inner) ++ ['"']) = [('"' :: inner) ++ ['"']]) ∧
    splitArgs ("f(a,b),c".data) = ["f(a,b)".data, "c".data] := by
  refine ⟨?_, by decide⟩
  intro inner h
  unfold splitArgs
  cases inner with
  | nil => decide
  | cons c cs =>
    have hc := h c (by simp)
    have hcs : ∀ x ∈ cs, x ≠ '"' ∧ x ≠ '\\' := fun x hx => h x (by simp [hx])
    simp only [List.cons_append, List.nil_append]
    rw [splitArgsRun_norm_quote hc.1, splitArgsRun_str_cons hc.1 hc.2,
      splitArgsRun_str_clean cs _ _ hcs]
    have he : ([] ++ ['"'] ++ [c] ++ cs ++ ['"'] : List Char) = ('"' :: (c :: cs)) ++ ['"'] := by
      simp
    rw [he, trimL_quoted]
    simp

/-- C8 witness: the quoted argument `"a,b"` — commas inside the string —
stays one argument. -/
theorem splitArgs_amended_witness :
    splitArgs (('"' :: "a,b".data) ++ ['"']) = [('"' :: "a,b".data) ++ ['"']] :=
  splitArgs_amended.1 ("a,b".data) (by decide)

/-! ### C3: unbalanced argument lists degrade locally -/

/-- C3 counterexample: for the expression `Text("hi` the argument list never
balances, yet the parser stores the NON-empty props list `["\"h"]` (the
argument text up to the end of the expression with its final character
dropped), not the empty props list the claim requires. -/
theorem parseViewExpression_unbalanced_counterexample :
    (parseViewExpression 5 ("Text(\"hi".data)).map ViewNode.props = some (some ["\"h"]) ∧
    some (some (["\"h"] : List String)) ≠ some (some ([] : List String)) := by
  constructor
  · rfl
  · decide

/-- C3 amended: for every expression whose parenthesized argument list never
balances (an identifier head followed by `(` and text containing no further
parenthesis, so the scan runs to the end of the text), the Expression Parser
does not abort: it returns a node with the parsed name and a best-effort
props list computed from the argument text truncated at the end of the
expression with its final character dropped (`slice(i + 1, j - 1)` in the
source), with no modifiers and no children.  The props list is empty only
when that truncated text is blank. -/
theorem parseViewExpression_unbalanced_amended : ∀ (fuel : Nat) (nm t : List Char),
    nm ≠ [] → (∀ c ∈ nm, isIdentChar c = true) →
    (∀ c ∈ t, c ≠ '(' ∧ c ≠ ')') →
    (∀ c, t.getLast? = some c → jsIsSpace c = false) →
    parseViewExpression (fuel + 2) (nm ++ '(' :: t) =
      some (.mk
        (if isForEachName (String.mk nm) then "ForEach"
         else if kindContainerNames.contains (String.mk nm) then "Container" else "View")
        (String.mk nm)
        (some ((parsePropsFromArgs t.dropLast).map String.mk)) [] []) := by
  intro fuel nm t h1 h2 h3 h4
  have htrim : trimL (nm ++ '(' :: t) = nm ++ '(' :: t := by
    apply trimL_eq_self
    · intro c hc
      cases nm with
      | nil => exact absurd rfl h1
      | cons n0 nrest =>
        simp at hc
        subst hc
        exact ident_not_space (h2 n0 (by simp))
    · intro c hc
      rw [List.getLast?_append] at hc
      cases t with
      | nil =>
        simp at hc
        subst hc
        decide
      | cons t0 ts =>
        rw [List.getLast?_cons_cons] at hc
        cases hlast : (t0 :: ts : List Char).getLast? with
        | none => exact absurd (List.getLast?_eq_none_iff.mp hlast) (by simp)
        | some d =>
          rw [hlast] at hc
          simp at hc
          subst hc
          exact h4 d hlast
  have hnm : ∃ n0 nrest, nm = n0 :: nrest := by
    cases nm with
    | nil => exact absurd rfl h1
    | cons a b => exact ⟨a, b, rfl⟩
  obtain ⟨n0, nrest, rfl⟩ := hnm
  have hid : ∀ c ∈ (n0 :: nrest : List Char), isIdentChar c = true := h2
  have htake : ((n0 :: nrest) ++ '(' :: t).takeWhile isIdentChar = n0 :: nrest := by
    rw [List.takeWhile_append_of_pos (by exact fun a ha => hid a ha)]
    simp [List.takeWhile_cons, isIdentChar, isWordChar]
  have hdropid : ((n0 :: nrest) ++ '(' :: t).dropWhile isIdentChar = '(' :: t := by
    rw [List.dropWhile_append_of_pos (by exact fun a ha => hid a ha)]
    simp [List.dropWhile_cons, isIdentChar, isWordChar]
  have hdropsp : ((n0 :: nrest) ++ '(' :: t).dropWhile jsIsSpace = (n0 :: nrest) ++ '(' :: t := by
    simp only [List.cons_append, List.dropWhile_cons, ident_not_space (h2 n0 (by simp))]
    simp
  have hparen : parenScan ('(' :: t) = ('(' :: t, []) := by
    unfold parenScan
    have h1' : parenScanAux 0 ('(' :: t) =
        ('(' :: (parenScanAux 1 t).1, (parenScanAux 1 t).2) := by
      simp [parenScanAux]
    rw [h1', parenScanAux_no_paren (by norm_num) h3]
  have hdropsp2 : ('(' :: t : List Char).dropWhile jsIsSpace = '(' :: t := by
    simp only [List.dropWhile_cons]
    rw [if_neg (by decide)]
  have htail : ∀ ks : String, parseViewExprTail (fuel + 1) ks (String.mk (n0 :: nrest))
      (parsePropsFromArgs t.dropLast) [] [] =
      some (.mk ks (String.mk (n0 :: nrest))
        (some ((parsePropsFromArgs t.dropLast).map String.mk)) [] []) := by
    intro ks
    simp [parseViewExprTail, scanModifiers, scanModsRun]
  simp only [parseViewExpression, htrim, hdropsp, htake, hdropid, hdropsp2, hparen, findContent,
    List.drop_succ_cons, List.drop_zero, List.isEmpty_cons, Bool.false_eq_true, if_false]
  rw [ite_self]
  exact htail _

/-- C3 witness: the amended statement applied to `Text("hi`. -/
theorem parseViewExpression_unbalanced_amended_witness :
    parseViewExpression 5 ("Text".data ++ '(' :: "\"hi".data) =
      some (.mk "View" "Text" (some ["\"h"]) [] []) := by
  have h := parseViewExpression_unbalanced_amended 3 ("Text".data) ("\"hi".data)
    (by decide) (by decide) (by decide) (by decide)
  exact h.trans (by rfl)

/-! ### C7: root-candidate ordering -/

theorem localeLE_total : ∀ a b : List Char, localeLE a b || localeLE b a
  | [], b => by simp [localeLE]
  | x :: xs, [] => by simp [localeLE]
  | x :: xs, y :: ys => by
    rcases lt_trichotomy x y with h | h | h
    · simp [localeLE, h]
    · subst h
      simpa [localeLE] using localeLE_total xs ys
    · simp [localeLE, h, lt_asymm h]

theorem localeLE_trans : ∀ a b c : List Char,
    localeLE a b = true → localeLE b c = true → localeLE a c = true
  | [], _, _, _, _ => by simp [localeLE]
  | x :: xs, [], _, h1, _ => by simp [localeLE] at h1
  | x :: xs, y :: ys, [], _, h2 => by simp [localeLE] at h2
  | x :: xs, y :: ys, z :: zs, h1, h2 => by
    simp only [localeLE] at h1 h2 ⊢
    rcases lt_trichotomy x y with hxy | hxy | hxy
    · rcases lt_trichotomy y z with hyz | hyz | hyz
      · simp [hxy.trans hyz]
      · subst hyz
        simp [hxy]
      · rw [if_neg (lt_asymm hyz), if_pos hyz] at h2
        simp at h2
    · subst hxy
      rcases lt_trichotomy x z with hyz | hyz | hyz
      · simp [hyz]
      · subst hyz
        rw [if_neg (lt_irrefl x), if_neg (lt_irrefl x)] at h1 h2 ⊢
        exact localeLE_trans xs ys zs h1 h2
      · rw [if_neg (lt_asymm hyz), if_pos hyz] at h2
        simp at h2
    · rw [if_neg (lt_asymm hxy), if_pos hxy] at h1
      simp at h1

theorem localeLE_antisymm : ∀ a b : List Char,
    localeLE a b = true → localeLE b a = true → a = b
  | [], [], _, _ => rfl
  | [], y :: ys, _, h2 => by simp [localeLE] at h2
  | x :: xs, [], h1, _ => by simp [localeLE] at h1
  | x :: xs, y :: ys, h1, h2 => by
    simp only [localeLE] at h1 h2
    rcases lt_trichotomy x y with hxy | hxy | hxy
    · rw [if_neg (lt_asymm hxy), if_pos hxy] at h2
      simp at h2
    · subst hxy
      rw [if_neg (lt_irrefl x), if_neg (lt_irrefl x)] at h1 h2
      rw [localeLE_antisymm xs ys h1 h2]
    · rw [if_neg (lt_asymm hxy), if_pos hxy] at h1
      simp at h1

theorem rootLE_total (a b : String) : rootLE a b || rootLE b a := by
  unfold rootLE
  rcases Nat.lt_trichotomy (rootScore a) (rootScore b) with h | h | h
  · simp [h]
  · have := localeLE_total a.data b.data
    rcases Bool.or_eq_true_iff.mp this with h2 | h2 <;> simp [h, h2]
  · simp [h]

theorem rootLE_trans (a b c : String) : rootLE a b → rootLE b c → rootLE a c := by
  unfold rootLE
  intro h1 h2
  simp only [Bool.or_eq_true, Bool.and_eq_true, decide_eq_true_eq] at h1 h2 ⊢
  rcases h1 with h1 | ⟨h1e, h1le⟩ <;> rcases h2 with h2 | ⟨h2e, h2le⟩
  · exact Or.inl (h1.trans h2)
  · exact Or.inl (h2e ▸ h1)
  · exact Or.inl (h1e ▸ h2)
  · exact Or.inr ⟨h1e.trans h2e, localeLE_trans _ _ _ h1le h2le⟩

theorem rootLE_antisymm (a b : String) : rootLE a b = true → rootLE b a = true → a = b := by
  unfold rootLE
  intro h1 h2
  simp only [Bool.or_eq_true, Bool.and_eq_true, decide_eq_true_eq] at h1 h2
  rcases h1 with h1 | ⟨h1e, h1le⟩ <;> rcases h2 with h2 | ⟨h2e, h2le⟩ <;> try omega
  have := localeLE_antisymm _ _ h1le h2le
  exact String.ext this

theorem rootLE_le_score {a b : String} (h : rootLE a b = true) : rootScore a ≤ rootScore b := by
  unfold rootLE at h
  simp only [Bool.or_eq_true, Bool.and_eq_true, decide_eq_true_eq] at h
  rcases h with h | ⟨h, _⟩ <;> omega

/-- C7.  The Root Candidate Selector orders every declaration name matching
the entry-point pattern before every non-matching name (the scores along the
output are nondecreasing, and the score is 0 exactly for pattern matches),
with the comparator's lexicographic order within each group (the output is
pairwise `rootLE`-sorted), and the output is a permutation of the key set;
the concrete key set `[HeaderView, ContentView, TitleView]` ranks as
`[ContentView, HeaderView, TitleView]`, and an empty map yields an empty
list. -/
theorem collectRootCandidates_ordering :
    (∀ m : List (String × String),
      (collectRootCandidates m).Pairwise (fun a b => rootLE a b = true) ∧
      (collectRootCandidates m).Pairwise (fun a b => rootScore a ≤ rootScore b) ∧
      (collectRootCandidates m).Perm (m.map Prod.fst)) ∧
    collectRootCandidates [("HeaderView", ""), ("ContentView", ""), ("TitleView", "")] =
      ["ContentView", "HeaderView", "TitleView"] ∧
    collectRootCandidates [] = [] := by
  have hpw : ∀ m : List (String × String),
      (collectRootCandidates m).Pairwise (fun a b => rootLE a b = true) := by
    intro m
    unfold collectRootCandidates
    exact List.sorted_mergeSort (fun a b c => rootLE_trans a b c) rootLE_total (m.map Prod.fst)
  refine ⟨fun m => ⟨hpw m, ?_, ?_⟩, ?_, ?_⟩
  · exact (hpw m).imp fun h => rootLE_le_score h
  · exact List.mergeSort_perm _ _
  · haveI : IsAntisymm String (fun a b => rootLE a b = true) := ⟨rootLE_antisymm⟩
    apply List.eq_of_perm_of_sorted (r := fun a b => rootLE a b = true)
    · exact (List.mergeSort_perm _ _).trans (by decide)
    · exact hpw _
    · simp [List.sorted_cons]
      refine ⟨⟨?_, ?_⟩, ?_⟩ <;> decide
  · have h := List.mergeSort_perm ([] : List String) rootLE
    have h2 := List.Perm.nil_eq h.symm
    simp only [collectRootCandidates, List.map_nil]
    exact h2.symm

/-! ### C9: sibling occurrences are inlined independently -/

/-- C9.  The resolver treats sibling branches independently: each child of a
node is resolved with the same `seen` set (the in-progress set produced by
one branch never carries into a disjoint branch), so two sibling occurrences
of the same declaration resolve to the same result — shown generally for a
parent with two identical children, and concretely for a body using
`TitleView()` in two sibling positions, both of which are inlined. -/
theorem resolveCustomViews_siblings :
    (∀ (fuel : Nat) (viewMap : List (String × String)) (seen : List String) (p c c' : ViewNode),
      lookupMap viewMap p.name = none → p.children = [c, c] →
      resolveCustomViews fuel c viewMap seen = some c' →
      resolveCustomViews (fuel + 1) p viewMap seen =
        some (.mk p.kind p.name p.props p.modifiers [c', c'])) ∧
    buildTreeForRoot 14
      [("ContentView", "VStack \x7b\nTitleView()\nTitleView()\n\x7d"),
       ("TitleView", "Text(\"t\")")] "ContentView" =
      some (some (.mk "Container" "VStack" (some []) []
        [.mk "CustomView" "TitleView" (some []) []
          [.mk "View" "Text" (some ["\"t\""]) [] []],
         .mk "CustomView" "TitleView" (some []) []
          [.mk "View" "Text" (some ["\"t\""]) [] []]])) := by
  constructor
  · intro fuel viewMap seen p c c' hlook hch hc
    simp only [resolveCustomViews, hlook, hch]
    simp [List.mapM.loop, hc]
  · rfl

/-- C9 witness: the general statement applied to a parent with two `D()`
children over the map `D ↦ Image()`; both siblings are inlined. -/
theorem resolveCustomViews_siblings_witness :
    resolveCustomViews 7
      (.mk "Container" "VStack" (some []) []
        [.mk "View" "D" (some []) [] [], .mk "View" "D" (some []) [] []])
      [("D", "Image()")] [] =
      some (.mk "Container" "VStack" (some []) []
        [.mk "CustomView" "D" (some []) [] [.mk "View" "Image" (some []) [] []],
         .mk "CustomView" "D" (some []) [] [.mk "View" "Image" (some []) [] []]]) :=
  resolveCustomViews_siblings.1 6 [("D", "Image()")] []
    (.mk "Container" "VStack" (some []) []
      [.mk "View" "D" (some []) [] [], .mk "View" "D" (some []) [] []])
    (.mk "View" "D" (some []) [] [])
    (.mk "CustomView" "D" (some []) [] [.mk "View" "Image" (some []) [] []])
    rfl rfl (by rfl)

/-! ### C10: the synthetic Group wrapper -/

theorem parseViewExprTail_props_isSome :
    ∀ (fuel : Nat) (ks ns : String) (pr : List (List Char)) (ch0 : List ViewNode)
      (restA : List Char) (nd : ViewNode),
      parseViewExprTail fuel ks ns pr ch0 restA = some nd → nd.props.isSome = true := by
  intro fuel ks ns pr ch0 restA nd h
  cases fuel with
  | zero => simp [parseViewExprTail] at h
  | succ f =>
    simp only [parseViewExprTail] at h
    split at h
    · split at h
      · split at h
        · simp at h
        · injection h with h2
          subst h2
          rfl
      · injection h with h2
        subst h2
        rfl
    · injection h with h2
      subst h2
      rfl

theorem parseViewExpression_props_isSome :
    ∀ (fuel : Nat) (expr : List Char) (nd : ViewNode),
      parseViewExpression fuel expr = some nd → nd.props.isSome = true := by
  intro fuel expr nd h
  cases fuel with
  | zero => simp [parseViewExpression] at h
  | succ f =>
    simp only [parseViewExpression] at h
    repeat' split at h
    all_goals
      first
        | exact parseViewExprTail_props_isSome _ _ _ _ _ _ _ h
        | simp at h

/-- C10.  When the chosen root's body parses to zero or to more than one
top-level expression, `buildTreeForRoot` builds the synthetic wrapper
`ViewNode.mk "View" "Group" none [] kids` — named `Group`, of kind `View`
(not `Container`), with NO `props` field (`none`), children the parsed
expressions in source order — and returns its resolution; by contrast,
every node produced by `parseViewExpression` carries a `props` field
(`isSome`).  Concretely, a two-expression body yields the `Group` wrapper
with the two `Text` children in source order. -/
theorem buildTree_group_wrapper :
    (∀ (fuel : Nat) (viewMap : List (String × String)) (rootName body : String)
      (kids : List ViewNode),
      lookupMap viewMap rootName = some body → body ≠ "" →
      parseChildrenBlock fuel none body.data = some kids → kids.length ≠ 1 →
      buildTreeForRoot fuel viewMap rootName =
        (resolveCustomViews fuel (.mk "View" "Group" none [] kids) viewMap []).map some) ∧
    (∀ (fuel : Nat) (expr : List Char) (nd : ViewNode),
      parseViewExpression fuel expr = some nd → nd.props.isSome = true) ∧
    buildTreeForRoot 12 [("A", "Text(\"x\")\nText(\"y\")")] "A" =
      some (some (.mk "View" "Group" none []
        [.mk "View" "Text" (some ["\"x\""]) [] [],
         .mk "View" "Text" (some ["\"y\""]) [] []])) := by
  refine ⟨?_, parseViewExpression_props_isSome, by rfl⟩
  intro fuel viewMap rootName body kids hlook hbody hkids hlen
  simp only [buildTreeForRoot, hlook, if_neg hbody, hkids]
  cases kids with
  | nil =>
    cases hrcv : resolveCustomViews fuel (.mk "View" "Group" none [] []) viewMap [] <;>
      simp [hrcv]
  | cons a as =>
    cases as with
    | nil => simp at hlen
    | cons b bs =>
      cases hrcv : resolveCustomViews fuel (.mk "View" "Group" none [] (a :: b :: bs)) viewMap [] <;>
        simp [hrcv]

/-- C10 witness: the wrapper statement applied to the two-expression body,
and the props-presence statement applied to a parsed `Text` expression. -/
theorem buildTree_group_wrapper_witness :
    buildTreeForRoot 12 [("A", "Text(\"x\")\nText(\"y\")")] "A" =
      (resolveCustomViews 12
        (.mk "View" "Group" none []
          [.mk "View" "Text" (some ["\"x\""]) [] [],
           .mk "View" "Text" (some ["\"y\""]) [] []])
        [("A", "Text(\"x\")\nText(\"y\")")] []).map some ∧
    (ViewNode.mk "View" "Text" (some ["\"x\""]) [] []).props.isSome = true :=
  ⟨buildTree_group_wrapper.1 12 [("A", "Text(\"x\")\nText(\"y\")")] "A" "Text(\"x\")\nText(\"y\")"
      [.mk "View" "Text" (some ["\"x\""]) [] [], .mk "View" "Text" (some ["\"y\""]) [] []]
      rfl (by decide) (by rfl) (by decide),
   buildTree_group_wrapper.2.1 5 ("Text(\"x\")".data) (.mk "View" "Text" (some ["\"x\""]) [] [])
      (by rfl)⟩

/-! ### C5: If-node branch shape -/

/-- C5.  Every node produced by `parseIfElse` has kind `If` and its children
are exactly one `Then` branch (always present, first), optionally followed
by one `Else` branch — never anything else; concretely,
`if x { Text("a") } else { Text("b") }` parses to an `If` node with exactly
the two `Branch` children `Then` and `Else`, and without `else` the `If`
node has only the `Then` branch. -/
theorem parseIfElse_branch_shape :
    (∀ (fuel : Nat) (l : List Char) (nd : ViewNode) (rest : List Char),
      parseIfElse fuel l = some (some nd, rest) →
      nd.kind = "If" ∧
      ((∃ tc, nd.children = [.mk "Branch" "Then" (some []) [] tc]) ∨
       (∃ tc ec, nd.children =
         [.mk "Branch" "Then" (some []) [] tc, .mk "Branch" "Else" (some []) [] ec]))) ∧
    parseChildrenBlock 12 none ("if x \x7b Text(\"a\") \x7d else \x7b Text(\"b\") \x7d".data) =
      some [.mk "If" "if x" (some []) []
        [.mk "Branch" "Then" (some []) [] [.mk "View" "Text" (some ["\"a\""]) [] []],
         .mk "Branch" "Else" (some []) [] [.mk "View" "Text" (some ["\"b\""]) [] []]]] ∧
    parseChildrenBlock 12 none ("if x \x7b Text(\"a\") \x7d".data) =
      some [.mk "If" "if x" (some []) []
        [.mk "Branch" "Then" (some []) [] [.mk "View" "Text" (some ["\"a\""]) [] []]]] := by
  refine ⟨?_, by rfl, by rfl⟩
  intro fuel l nd rest h
  cases fuel with
  | zero => simp [parseIfElse] at h
  | succ f =>
    simp only [parseIfElse] at h
    repeat' split at h
    all_goals
      first
        | (simp only [Option.some.injEq, Prod.mk.injEq] at h
           obtain ⟨h1, h2⟩ := h
           subst h1
           first
             | exact ⟨rfl, Or.inl ⟨_, rfl⟩⟩
             | exact ⟨rfl, Or.inr ⟨_, _, rfl⟩⟩)
        | simp at h

/-- C5 witness: the shape statement applied to the parse of a concrete
`if`/`else` construct. -/
theorem parseIfElse_branch_shape_witness :
    (ViewNode.mk "If" "if x" (some []) []
      [.mk "Branch" "Then" (some []) [] [.mk "View" "Text" (some ["\"a\""]) [] []],
       .mk "Branch" "Else" (some []) [] [.mk "View" "Text" (some ["\"b\""]) [] []]]).kind =
      "If" ∧
    ((∃ tc, (ViewNode.mk "If" "if x" (some []) []
      [.mk "Branch" "Then" (some []) [] [.mk "View" "Text" (some ["\"a\""]) [] []],
       .mk "Branch" "Else" (some []) [] [.mk "View" "Text" (some ["\"b\""]) [] []]]).children =
        [.mk "Branch" "Then" (some []) [] tc]) ∨
     (∃ tc ec, (ViewNode.mk "If" "if x" (some []) []
      [.mk "Branch" "Then" (some []) [] [.mk "View" "Text" (some ["\"a\""]) [] []],
       .mk "Branch" "Else" (some []) [] [.mk "View" "Text" (some ["\"b\""]) [] []]]).children =
        [.mk "Branch" "Then" (some []) [] tc, .mk "Branch" "Else" (some []) [] ec])) :=
  parseIfElse_branch_shape.1 11
    ("if x \x7b Text(\"a\") \x7d else \x7b Text(\"b\") \x7d".data)
    (.mk "If" "if x" (some []) []
      [.mk "Branch" "Then" (some []) [] [.mk "View" "Text" (some ["\"a\""]) [] []],
       .mk "Branch" "Else" (some []) [] [.mk "View" "Text" (some ["\"b\""]) [] []]])
    [] (by rfl)

/-! ### C1: self-reference makes the resolver non-terminating -/

/-- The self-referencing declaration map: view `A` whose rendering body is
the single expression `A()`. -/
def selfRefMap : List (String × String) := [("A", "A()")]

/-- The node parsed from the expression `A()`. -/
def nodeA : ViewNode := .mk "View" "A" (some []) [] []

theorem pcb_selfRef_tri : ∀ f : Nat,
    parseChildrenBlock f none ("A()".data) = none ∨
    parseChildrenBlock f none ("A()".data) = some [nodeA]
  | 0 => Or.inl rfl
  | 1 => Or.inl rfl
  | 2 => Or.inl rfl
  | 3 => Or.inl rfl
  | (_ + 4) => Or.inr rfl

theorem rcv_selfRef_none : ∀ (f : Nat) (seen : List String), seen.contains "A" = false →
    resolveCustomViews f nodeA selfRefMap seen = none := by
  intro f
  induction f with
  | zero => intro seen _; rfl
  | succ f ih =>
    intro seen hseen
    have hlook : lookupMap selfRefMap "A" = some "A()" := rfl
    have hcont : containerTypes.contains ("A" : String) = false := by decide
    simp only [resolveCustomViews, nodeA, ViewNode.name, hlook, hcont, hseen,
      Bool.false_eq_true, if_false]
    rcases pcb_selfRef_tri f with hp | hp
    · rw [hp]
    · rw [hp]
      have herase : (("A" : String) :: seen).erase "A" = seen := List.erase_cons_head _ _
      rw [herase]
      simp only [List.mapM, List.mapM.loop, ih seen hseen]
      rfl

/-- C1 evaluation at the failing input: for the self-referencing declaration
`A ↦ A()`, `buildTreeForRoot` exhausts EVERY fuel bound — the source's
`resolveCustomViews` removes `A` from the `seen` set (src/parser.js:404)
before the loop over the freshly inlined children (src/parser.js:409-411),
so the guard never fires, each level re-inlines `A`, and the recursion never
terminates (a stack overflow in JavaScript).  The claimed behaviour —
termination with exactly one recursion-marker modifier — never occurs. -/
theorem buildTree_selfReference_nonterminating :
    ∀ fuel : Nat, buildTreeForRoot fuel selfRefMap "A" = none := by
  intro fuel
  have hlook : lookupMap selfRefMap "A" = some "A()" := rfl
  simp only [buildTreeForRoot, hlook]
  rw [if_neg (by decide)]
  rcases pcb_selfRef_tri fuel with hp | hp
  · rw [hp]
  · rw [hp]
    simp only [rcv_selfRef_none fuel [] rfl]
